import Mathlib

/-!
A shallow embedding of `dn42_route_parse` (`src/main.rs`) together with
theorems settling the specification claims about it.

Modelling conventions:
* Rust strings are `List Char`; a file already split on newlines is a
  `List (List Char)` of its lines (the newline split itself is I/O plumbing).
* Rust `u8`/`u32`/`u128` values are `Nat`s; wherever the source performs
  machine arithmetic whose overflow matters (the `32 - netmask` subtraction
  and the right shifts in `CIDR::contains`), the embedding checks the bound
  explicitly and returns `none` to model the arithmetic-overflow panic of
  Rust's checked (debug) semantics.
* Fallible code returns `Option`/`Except`; `none` at the outermost level
  always means a panic, `Except.error` a recoverable per-record error.
* `std` IP-literal parsing is external to the repository and is modelled
  concretely below (dotted-quad IPv4, grouped-hex IPv6).
-/

/-- Models Rust `char::is_whitespace` as used for token splitting (ASCII
whitespace fragment; the source's behavior on exotic Unicode whitespace is
not exercised by any claim). -/
def isWS (c : Char) : Bool := c.isWhitespace

/-- Accumulator-passing splitter: `splitWSAux s acc` scans `s` with `acc`
holding the token currently being built. -/
def splitWSAux : List Char → List Char → List (List Char)
  | [], acc => if acc.isEmpty then [] else [acc]
  | c :: cs, acc =>
    if isWS c then
      if acc.isEmpty then splitWSAux cs [] else acc :: splitWSAux cs []
    else
      splitWSAux cs (acc ++ [c])

/-- Models Rust `str::split_whitespace`: runs of whitespace separate tokens,
no empty tokens are produced. -/
def splitWS (s : List Char) : List (List Char) := splitWSAux s []

/-- Numeric value of a list of ASCII decimal digits. -/
def natOfDigits (s : List Char) : Nat :=
  s.foldl (fun n c => n * 10 + (c.toNat - ('0').toNat)) 0

/-- Models Rust `<u8 as FromStr>::from_str`: an optional leading `+`,
then one or more ASCII digits, value at most 255. -/
def parseU8 (s : List Char) : Option Nat :=
  let ds := match s with
    | '+' :: rest => rest
    | _ => s
  if ds ≠ [] ∧ ds.all Char.isDigit then
    let n := natOfDigits ds
    if n ≤ 255 then some n else none
  else none

/-- An IP address of either family, carried as its unsigned integer value
(`u32` for IPv4, `u128` for IPv6). -/
inductive IpAddr where
  | v4 (a : Nat)
  | v6 (a : Nat)
deriving DecidableEq

/-- Modelled from the spec: one octet of a dotted-quad IPv4 literal, as
`std` parses it (decimal, no sign, no leading zeros, at most 255). -/
def parseOctet (s : List Char) : Option Nat :=
  if s ≠ [] ∧ s.all Char.isDigit ∧ (s.length = 1 ∨ s.head? ≠ some ('0')) then
    let n := natOfDigits s
    if n ≤ 255 then some n else none
  else none

/-- Modelled from the spec: `std` IPv4 dotted-quad literal parsing
(external to the repository). -/
def parseIPv4 (s : List Char) : Option Nat :=
  match (s.splitOn ('.')).mapM parseOctet with
  | some [a, b, c, d] => some (((a * 256 + b) * 256 + c) * 256 + d)
  | _ => none

/-- Value of one ASCII hex digit. -/
def hexVal (c : Char) : Nat :=
  if c.isDigit then c.toNat - ('0').toNat
  else if 'a' ≤ c ∧ c ≤ 'f' then c.toNat - ('a').toNat + 10
  else c.toNat - ('A').toNat + 10

/-- Modelled from the spec: one 16-bit group of an IPv6 literal
(one to four hex digits). -/
def parseHexGroup (s : List Char) : Option Nat :=
  if s ≠ [] ∧ s.length ≤ 4 ∧
      s.all (fun c => c.isDigit ∨ ('a' ≤ c ∧ c ≤ 'f') ∨ ('A' ≤ c ∧ c ≤ 'F')) then
    some (s.foldl (fun n c => n * 16 + hexVal c) 0)
  else none

/-- Splits at the first occurrence of a double colon, if any. -/
def splitDC : List Char → Option (List Char × List Char)
  | [] => none
  | [_] => none
  | a :: b :: rest =>
    if a = ':' ∧ b = ':' then some ([], rest)
    else
      match splitDC (b :: rest) with
      | some (l, r) => some (a :: l, r)
      | none => none

/-- Big-endian value of a list of 16-bit groups. -/
def groupsVal (gs : List Nat) : Nat := gs.foldl (fun n g => n * 65536 + g) 0

/-- Modelled from the spec: `std` IPv6 literal parsing (external to the
repository): colon-separated hex groups with at most one `::` compression.
The embedded-IPv4-tail form is omitted; no claim exercises it. -/
def parseIPv6 (s : List Char) : Option Nat :=
  match splitDC s with
  | none =>
    match (s.splitOn (':')).mapM parseHexGroup with
    | some gs => if gs.length = 8 then some (groupsVal gs) else none
    | none => none
  | some (l, r) =>
    if (splitDC r).isSome then none
    else
      let lparts := if l = [] then [] else l.splitOn (':')
      let rparts := if r = [] then [] else r.splitOn (':')
      match lparts.mapM parseHexGroup, rparts.mapM parseHexGroup with
      | some lg, some rg =>
        if lg.length + rg.length ≤ 7 then
          some (groupsVal (lg ++ List.replicate (8 - lg.length - rg.length) 0 ++ rg))
        else none
      | _, _ => none

/-- Modelled from the spec: `std` `IpAddr` literal parsing — a valid IPv4
literal, else a valid IPv6 literal. -/
def parseIp (s : List Char) : Option IpAddr :=
  match parseIPv4 s with
  | some v => some (.v4 v)
  | none =>
    match parseIPv6 s with
    | some v => some (.v6 v)
    | none => none

/-- Embeds the source's `struct CIDR { ip: IpAddr, netmask: u8 }`. -/
structure CIDR where
  ip : IpAddr
  netmask : Nat
deriving DecidableEq

/-- Embeds `CIDR::from_str` (src/main.rs lines 33-53): split on `/`, require
exactly two parts, parse the address as an IP literal and the mask as a `u8`.
Note the source checks the parsed mask against no family bit width. -/
def CIDR.fromStr (s : List Char) : Option CIDR :=
  match s.splitOn ('/') with
  | [a, n] =>
    match parseIp a with
    | none => none
    | some ip =>
      match parseU8 n with
      | none => none
      | some netmask => some ⟨ip, netmask⟩
  | _ => none

/-- Embeds `CIDR::contains` (src/main.rs lines 55-72) under Rust's checked
(debug) arithmetic: `none` models a panic. The source computes
`a >> (32 - self.netmask)` with `u8` subtraction, so a netmask above the bit
width underflows the subtraction and a netmask of zero shifts by the full
bit width; both overflow-panic when checked. Cross-family comparisons
return `false` without any arithmetic. -/
def CIDR.contains (c : CIDR) (a : IpAddr) : Option Bool :=
  match c.ip, a with
  | .v4 x, .v4 y =>
    if 32 < c.netmask then none
    else if 32 - c.netmask = 32 then none
    else some (decide (x >>> (32 - c.netmask) = y >>> (32 - c.netmask)))
  | .v6 x, .v6 y =>
    if 128 < c.netmask then none
    else if 128 - c.netmask = 128 then none
    else some (decide (x >>> (128 - c.netmask) = y >>> (128 - c.netmask)))
  | .v4 _, .v6 _ => some false
  | .v6 _, .v4 _ => some false

/-- Whether two addresses belong to the same family. -/
def sameFamily : IpAddr → IpAddr → Bool
  | .v4 _, .v4 _ => true
  | .v6 _, .v6 _ => true
  | _, _ => false

/-- Embeds the list element type of `filters: Vec<(CIDR, bool, u8, u8)>`:
network, permit flag, min length, max length. -/
structure Rule where
  cidr : CIDR
  allow : Bool
  minLen : Nat
  maxLen : Nat
deriving DecidableEq

/-- One iteration of the `process_filter` loop body (src/main.rs lines
125-163): `none` models every `continue`. -/
def lineRule (line : List Char) : Option Rule :=
  match line.head? with
  | none => none
  | some first =>
    if first < '0' ∨ '9' < first then none
    else
      match splitWS line with
      | _ :: act :: cidrTok :: minTok :: maxTok :: _ :: _ =>
        let allow := if act = ("deny").data then some false
                     else if act = ("permit").data then some true
                     else none
        match allow with
        | none => none
        | some allow =>
          match CIDR.fromStr cidrTok with
          | none => none
          | some cidr =>
            match parseU8 minTok, parseU8 maxTok with
            | some mn, some mx => some ⟨cidr, allow, mn, mx⟩
            | _, _ => none
      | _ => none

/-- Embeds `process_filter` (src/main.rs lines 118-166) applied to the lines
of one filter file: valid rules are appended in file order, every other
line is skipped. -/
def process_filter : List (List Char) → List Rule
  | [] => []
  | l :: ls =>
    match lineRule l with
    | none => process_filter ls
    | some r => r :: process_filter ls

/-- The per-record parse state of `process_entry` (src/main.rs lines
197-199): captured prefix text, origin ASN list, declared max length. -/
structure RecordAcc where
  prefixText : Option (List Char)
  asns : List (List Char)
  maxLen : Option Nat
deriving DecidableEq

/-- The recoverable per-record failures of `process_entry`, by kind (the
source carries them as `anyhow` message strings). -/
inductive EntryError where
  | malformedRecord
  | noRouteSpecified
  | malformedCidr
  | outOfPolicyRange
deriving DecidableEq

/-- One iteration of the record-scanning loop of `process_entry`
(src/main.rs lines 202-228): skip blank/indented lines, lowercase the
working copy, split it, match the keyword; `route:`/`route6:` overwrites the
prefix with the lower-cased token, `origin:` appends the upper-cased token,
`max-length:` parses the token as `u8` and fails the record on a parse
error (the `?` at line 224). -/
def scanStep (acc : RecordAcc) (line : List Char) : Except EntryError RecordAcc :=
  match line.head? with
  | none => .ok acc
  | some c =>
    if c.isWhitespace then .ok acc
    else
      match splitWS (line.map Char.toLower) with
      | t0 :: t1 :: _ =>
        if t0 = ("route:").data ∨ t0 = ("route6:").data then
          .ok { acc with prefixText := some t1 }
        else if t0 = ("origin:").data then
          .ok { acc with asns := acc.asns ++ [t1.map Char.toUpper] }
        else if t0 = ("max-length:").data then
          match parseU8 t1 with
          | some n => .ok { acc with maxLen := some n }
          | none => .error .malformedRecord
        else .ok acc
      | _ => .ok acc

/-- The empty parse state a record scan starts from. -/
def emptyAcc : RecordAcc := ⟨none, [], none⟩

/-- Runs `scanStep` over the remaining lines from a given state. -/
def scanLinesAux : RecordAcc → List (List Char) → Except EntryError RecordAcc
  | acc, [] => .ok acc
  | acc, l :: ls =>
    match scanStep acc l with
    | .error e => .error e
    | .ok acc2 => scanLinesAux acc2 ls

/-- The record-scanning loop of `process_entry` over a whole record. -/
def scanLines (lines : List (List Char)) : Except EntryError RecordAcc :=
  scanLinesAux emptyAcc lines

/-- Embeds the source's output `struct ROA` (prefix text, effective max
length, origin ASN). -/
structure ROA where
  prefixText : List Char
  maxLength : Nat
  asn : List Char
deriving DecidableEq

/-- The possible outcomes of the filter-resolution loop. -/
inductive ResolveResult where
  | denied
  | noMatch
  | allowed (minLen maxLen : Nat)
deriving DecidableEq

/-- Embeds the filter-resolution loop of `process_entry` (src/main.rs lines
240-256): scan the rules in order and stop at the first whose CIDR contains
the address; `none` propagates a panic from `CIDR.contains`. -/
def resolve : List Rule → IpAddr → Option ResolveResult
  | [], _ => some .noMatch
  | r :: rs, a =>
    match r.cidr.contains a with
    | none => none
    | some true => some (if r.allow then .allowed r.minLen r.maxLen else .denied)
    | some false => resolve rs a

/-- Embeds the max-length clamping of `process_entry` (src/main.rs lines
258-269). -/
def effectiveMaxLength (declared : Option Nat) (fmin fmax : Nat) : Nat :=
  match declared with
  | some d => if fmax < d then fmax else if d < fmin then fmin else d
  | none => fmax

/-- Embeds the tail of `process_entry` after the scanning loop (src/main.rs
lines 230-286): require a prefix, re-split it on `/` into exactly two parts,
parse address and netmask, resolve against the filters, clamp the max
length, drop too-specific routes, and emit one ROA per origin ASN. -/
def finishEntry (acc : RecordAcc) (filters : List Rule) :
    Option (Except EntryError (List ROA)) :=
  match acc.prefixText with
  | none => some (.error .noRouteSpecified)
  | some pfx =>
    match pfx.splitOn ('/') with
    | [p0, p1] =>
      match parseIp p0 with
      | none => some (.error .malformedCidr)
      | some addr =>
        match parseU8 p1 with
        | none => some (.error .malformedCidr)
        | some netmask =>
          match resolve filters addr with
          | none => none
          | some .denied => some (.ok [])
          | some .noMatch => some (.error .outOfPolicyRange)
          | some (.allowed fmin fmax) =>
            let eff := effectiveMaxLength acc.maxLen fmin fmax
            if eff < netmask then some (.ok [])
            else some (.ok (acc.asns.map fun a => ⟨pfx, eff, a⟩))
    | _ => some (.error .malformedCidr)

/-- Embeds `process_entry` (src/main.rs lines 190-286) on one record's
lines: the scanning loop followed by `finishEntry`. Reading the file itself
is I/O plumbing and outside the model. -/
def process_entry (lines : List (List Char)) (filters : List Rule) :
    Option (Except EntryError (List ROA)) :=
  match scanLines lines with
  | .error e => some (.error e)
  | .ok acc => finishEntry acc filters

/-- Embeds `process_directory` (src/main.rs lines 168-188) on the records of
one directory: a failed record is reported and skipped, the successes'
entries are concatenated in order; `none` propagates a panic. -/
def process_directory : List (List (List Char)) → List Rule → Option (List ROA)
  | [], _ => some []
  | f :: fs, filters =>
    match process_entry f filters with
    | none => none
    | some (.error _) => process_directory fs filters
    | some (.ok roas) =>
      match process_directory fs filters with
      | none => none
      | some rest => some (roas ++ rest)

/-- Decidable equality for `Except`, so concrete runs of the embedding can
be checked by `decide`. -/
instance instDecEqExcept {ε α : Type} [DecidableEq ε] [DecidableEq α] :
    DecidableEq (Except ε α) := fun a b =>
  match a, b with
  | .error e, .error f =>
    if h : e = f then isTrue (by rw [h]) else isFalse (by simp [h])
  | .ok x, .ok y =>
    if h : x = y then isTrue (by rw [h]) else isFalse (by simp [h])
  | .error _, .ok _ => isFalse (by simp)
  | .ok _, .error _ => isFalse (by simp)

/-- The resolution outcome dictated by a single matching rule (the body of
the `if f.0.contains(&addr)` branch, src/main.rs lines 243-250). -/
def ruleOutcome (r : Rule) : ResolveResult :=
  if r.allow then .allowed r.minLen r.maxLen else .denied

/-- Merge of two scan states: scanning a record tail from the state left by
its head behaves like scanning the tail alone and then letting the tail's
`route:`/`max-length:` values overwrite the head's while `origin:` lists
accumulate. -/
def mergeAcc (a b : RecordAcc) : RecordAcc :=
  ⟨match b.prefixText with
    | some p => some p
    | none => a.prefixText,
   a.asns ++ b.asns,
   match b.maxLen with
    | some n => some n
    | none => a.maxLen⟩

/-- The entries one record contributes to the run: its ROAs on success,
nothing on a per-record error. -/
def entryRoas (lines : List (List Char)) (filters : List Rule) : List ROA :=
  match process_entry lines filters with
  | some (.ok roas) => roas
  | _ => []

/-- Recognizes a line the record scanner reads as a `route:`/`route6:`
keyword line. -/
def isRouteLine (line : List Char) : Bool :=
  match line.head? with
  | none => false
  | some c =>
    if c.isWhitespace then false
    else
      match splitWS (line.map Char.toLower) with
      | t0 :: _ :: _ => t0 = ("route:").data ∨ t0 = ("route6:").data
      | _ => false

/-- Recognizes a `max-length:` line whose value token fails to parse as an
integer — the one line shape that makes a record scan fail. -/
def badMaxLenLine (line : List Char) : Bool :=
  match line.head? with
  | none => false
  | some c =>
    if c.isWhitespace then false
    else
      match splitWS (line.map Char.toLower) with
      | t0 :: t1 :: _ => t0 = ("max-length:").data ∧ parseU8 t1 = none
      | _ => false

/-! ## Helper lemmas -/

/-- Evaluating `Char.ofNat` at a valid code point round-trips. -/
theorem toNat_ofNat_valid (n : Nat) (hv : Nat.isValidChar n) : (Char.ofNat n).toNat = n := by
  simp only [Char.ofNat, hv, dif_pos, Char.ofNatAux]
  simp [Char.toNat, UInt32.toNat, BitVec.toNat_ofNatLt]

/-- Code point of an ASCII-lowercased character. -/
theorem toNat_toLower (c : Char) :
    c.toLower.toNat = if 65 ≤ c.toNat ∧ c.toNat ≤ 90 then c.toNat + 32 else c.toNat := by
  unfold Char.toLower
  by_cases h : 65 ≤ c.toNat ∧ c.toNat ≤ 90
  · have hv : Nat.isValidChar (c.toNat + 32) := by left; omega
    have hge : c.toNat ≥ 65 ∧ c.toNat ≤ 90 := h
    simp only [hge, and_self, if_true, h, toNat_ofNat_valid _ hv]
  · have hge : ¬ (c.toNat ≥ 65 ∧ c.toNat ≤ 90) := h
    simp [hge, h]

/-- Characters outside the ASCII upper-case range are `toLower`-fixed. -/
theorem toLower_eq_self (c : Char) (h : ¬ (65 ≤ c.toNat ∧ c.toNat ≤ 90)) : c.toLower = c := by
  unfold Char.toLower
  have hge : ¬ (c.toNat ≥ 65 ∧ c.toNat ≤ 90) := h
  simp [hge]

/-- ASCII lowercasing of a character is idempotent. -/
theorem toLower_toLower (c : Char) : c.toLower.toLower = c.toLower := by
  apply toLower_eq_self
  rw [toNat_toLower]
  by_cases h : 65 ≤ c.toNat ∧ c.toNat ≤ 90 <;> simp [h] <;> omega

/-- Code point of an ASCII-uppercased character. -/
theorem toNat_toUpper (c : Char) :
    c.toUpper.toNat = if 97 ≤ c.toNat ∧ c.toNat ≤ 122 then c.toNat - 32 else c.toNat := by
  unfold Char.toUpper
  by_cases h : 97 ≤ c.toNat ∧ c.toNat ≤ 122
  · have hv : Nat.isValidChar (c.toNat - 32) := by left; omega
    have hge : c.toNat ≥ 97 ∧ c.toNat ≤ 122 := h
    simp only [hge, and_self, if_true, h, toNat_ofNat_valid _ hv]
  · have hge : ¬ (c.toNat ≥ 97 ∧ c.toNat ≤ 122) := h
    simp [hge, h]

/-- Characters outside the ASCII lower-case range are `toUpper`-fixed. -/
theorem toUpper_eq_self (c : Char) (h : ¬ (97 ≤ c.toNat ∧ c.toNat ≤ 122)) : c.toUpper = c := by
  unfold Char.toUpper
  have hge : ¬ (c.toNat ≥ 97 ∧ c.toNat ≤ 122) := h
  simp [hge]

/-- ASCII uppercasing of a character is idempotent. -/
theorem toUpper_toUpper (c : Char) : c.toUpper.toUpper = c.toUpper := by
  apply toUpper_eq_self
  rw [toNat_toUpper]
  by_cases h : 97 ≤ c.toNat ∧ c.toNat ≤ 122 <;> simp [h] <;> omega

/-- A map by a function fixing every element of a list fixes the list. -/
theorem map_eq_self_of {α : Type} (l : List α) (f : α → α) (h : ∀ c ∈ l, f c = c) :
    l.map f = l := by
  induction l with
  | nil => rfl
  | cons x xs ih =>
    simp only [List.map_cons]
    rw [h x (List.mem_cons_self x xs), ih fun c hc => h c (List.mem_cons_of_mem x hc)]

/-- Every character of a token produced by `splitWSAux` comes from the
accumulator or the input. -/
theorem mem_splitWSAux_chars :
    ∀ (s acc t : List Char), t ∈ splitWSAux s acc → ∀ c ∈ t, c ∈ acc ∨ c ∈ s
  | [], acc, t, ht, c, hc => by
    unfold splitWSAux at ht
    split at ht
    · simp at ht
    · simp at ht
      subst ht
      exact Or.inl hc
  | ch :: cs, acc, t, ht, c, hc => by
    unfold splitWSAux at ht
    split at ht
    · split at ht
      · rcases mem_splitWSAux_chars cs [] t ht c hc with h | h
        · simp at h
        · exact Or.inr (List.mem_cons_of_mem _ h)
      · rcases List.mem_cons.mp ht with rfl | ht2
        · exact Or.inl hc
        · rcases mem_splitWSAux_chars cs [] t ht2 c hc with h | h
          · simp at h
          · exact Or.inr (List.mem_cons_of_mem _ h)
    · rcases mem_splitWSAux_chars cs (acc ++ [ch]) t ht c hc with h | h
      · rcases List.mem_append.mp h with h2 | h2
        · exact Or.inl h2
        · simp at h2
          subst h2
          exact Or.inr (List.mem_cons_self _ _)
      · exact Or.inr (List.mem_cons_of_mem _ h)

/-- Every character of a `splitWS` token occurs in the split input. -/
theorem mem_splitWS_chars (s t : List Char) (ht : t ∈ splitWS s) : ∀ c ∈ t, c ∈ s := by
  intro c hc
  rcases mem_splitWSAux_chars s [] t ht c hc with h | h
  · simp at h
  · exact h

/-- Tokens split out of an ASCII-lowercased line are lowercase-fixed. -/
theorem token_lower_fixed (l t : List Char) (ht : t ∈ splitWS (l.map Char.toLower)) :
    t.map Char.toLower = t := by
  apply map_eq_self_of
  intro c hc
  rcases List.mem_map.mp (mem_splitWS_chars _ _ ht c hc) with ⟨d, _, rfl⟩
  exact toLower_toLower d

/-- Cross-family containment returns `false` without any arithmetic. -/
theorem contains_cross (c : CIDR) (a : IpAddr) (h : sameFamily c.ip a = false) :
    c.contains a = some false := by
  rcases c with ⟨ip, n⟩
  cases ip <;> cases a <;> simp_all [sameFamily, CIDR.contains]

/-! ## Claim theorems: CIDR and clamping -/

/-- Claim C2: for permit bounds `(fmin, fmax)` with `fmin ≤ fmax`, a declared
max length below `fmin` is raised to `fmin`, one above `fmax` is lowered to
`fmax`, one inside the range passes through unchanged, and an undeclared max
length defaults to `fmax`. -/
theorem C2_effective_max_length_clamps (fmin fmax : Nat) (hb : fmin ≤ fmax) :
    (∀ d, d < fmin → effectiveMaxLength (some d) fmin fmax = fmin) ∧
    (∀ d, fmax < d → effectiveMaxLength (some d) fmin fmax = fmax) ∧
    (∀ d, fmin ≤ d → d ≤ fmax → effectiveMaxLength (some d) fmin fmax = d) ∧
    effectiveMaxLength none fmin fmax = fmax := by
  refine ⟨fun d h => ?_, fun d h => ?_, fun d h1 h2 => ?_, rfl⟩ <;>
    (simp only [effectiveMaxLength]; split_ifs <;> omega)

/-- Claim C2 witness: the clamping theorem evaluated at bounds `(16, 24)`
and declared lengths 10, 30, 20 and none. -/
theorem C2_effective_max_length_clamps_witness :
    effectiveMaxLength (some 10) 16 24 = 16 ∧ effectiveMaxLength (some 30) 16 24 = 24 ∧
    effectiveMaxLength (some 20) 16 24 = 20 ∧ effectiveMaxLength none 16 24 = 24 := by
  obtain ⟨h1, h2, h3, h4⟩ := C2_effective_max_length_clamps 16 24 (by decide)
  exact ⟨h1 10 (by decide), h2 30 (by decide), h3 20 (by decide) (by decide), h4⟩

/-- Claim C5 (code-bug evidence): on the family-invariant-satisfying CIDR
`0.0.0.0/0` and a same-family address, `contains` shifts a `u32` by the full
bit width 32 unguarded — a panic under Rust's checked arithmetic, modelled
as `none` — whereas at `netmask = 32` the shift amount is zero and
containment correctly degenerates to exact equality of the full
addresses. -/
theorem C5_full_width_shift_unguarded :
    CIDR.contains ⟨.v4 0, 0⟩ (.v4 1) = none ∧
    CIDR.contains ⟨.v4 5, 32⟩ (.v4 5) = some true ∧
    CIDR.contains ⟨.v4 5, 32⟩ (.v4 6) = some false := by
  exact ⟨by decide, by decide, by decide⟩

/-- Claim C6: containment depends only on the top `netmask` address bits —
two same-family addresses agreeing on them always receive the same result —
and cross-family containment is always `false`. -/
theorem C6_top_bits_determine_contains (c : CIDR) :
    (∀ x y : Nat, c.netmask ≤ 32 → x >>> (32 - c.netmask) = y >>> (32 - c.netmask) →
        c.contains (.v4 x) = c.contains (.v4 y)) ∧
    (∀ x y : Nat, c.netmask ≤ 128 → x >>> (128 - c.netmask) = y >>> (128 - c.netmask) →
        c.contains (.v6 x) = c.contains (.v6 y)) ∧
    (∀ x v : Nat, c.ip = .v4 v → c.contains (.v6 x) = some false) ∧
    (∀ x v : Nat, c.ip = .v6 v → c.contains (.v4 x) = some false) := by
  obtain ⟨ip, n⟩ := c
  refine ⟨fun x y hn h => ?_, fun x y hn h => ?_, fun x v hip => ?_, fun x v hip => ?_⟩
  · cases ip
    · simp only [CIDR.contains] at h ⊢
      rw [h]
    · rfl
  · cases ip
    · rfl
    · simp only [CIDR.contains] at h ⊢
      rw [h]
  · cases hip
    rfl
  · cases hip
    rfl

/-- Claim C6 witness: two addresses inside `10.0.0.0/8` agreeing on the top
8 bits get equal results, and a v4 network never contains a v6 address. -/
theorem C6_top_bits_determine_contains_witness :
    CIDR.contains ⟨.v4 167772160, 8⟩ (.v4 167772161)
      = CIDR.contains ⟨.v4 167772160, 8⟩ (.v4 167837696) ∧
    CIDR.contains ⟨.v4 7, 8⟩ (.v6 3) = some false := by
  exact ⟨(C6_top_bits_determine_contains _).1 _ _ (by decide) (by decide),
    (C6_top_bits_determine_contains _).2.2.1 3 7 rfl⟩

/-- Claim C7 (counterexample): `1.2.3.4/33` has a length beyond the IPv4 bit
width, yet `CIDR::from_str` accepts it — the length segment is validated
only as a `u8`, never against the parsed family's bit width. -/
theorem C7_no_family_width_check_counterexample :
    CIDR.fromStr (("1.2.3.4/33").data) = some ⟨.v4 16909060, 33⟩ ∧ 32 < 33 := by
  exact ⟨by decide, by decide⟩

/-- Claim C7 (amended): CIDR parsing fails exactly when the input does not
split on `/` into two segments, or the address segment is not a valid IP
literal, or the length segment is not a non-negative integer representable
as a `u8`; the family bit width is not checked, and on success the raw
parsed length is stored. -/
theorem C7_fromStr_failure_exactly (s : List Char) :
    (CIDR.fromStr s = none ↔
      ¬ ∃ a n ip m, s.splitOn ('/') = [a, n] ∧ parseIp a = some ip ∧ parseU8 n = some m) ∧
    (∀ a n ip m, s.splitOn ('/') = [a, n] → parseIp a = some ip → parseU8 n = some m →
      CIDR.fromStr s = some ⟨ip, m⟩) := by
  constructor
  · unfold CIDR.fromStr
    rcases hs : s.splitOn ('/') with _ | ⟨a, _ | ⟨n, _ | ⟨c, t⟩⟩⟩
    · simp [hs]
    · simp [hs]
    · cases hip : parseIp a with
      | none => simp [hs, hip]
      | some ip =>
        cases hu : parseU8 n with
        | none => simp [hs, hip, hu]
        | some m => simp [hs, hip, hu]
    · simp [hs]
  · intro a n ip m hsp hip hu
    unfold CIDR.fromStr
    rw [hsp]
    simp [hip, hu]

/-- Claim C7 witness: the success case of the amended theorem evaluated on
`10.0.0.0/8`. -/
theorem C7_fromStr_failure_exactly_witness :
    CIDR.fromStr (("10.0.0.0/8").data) = some ⟨.v4 167772160, 8⟩ := by
  exact (C7_fromStr_failure_exactly (("10.0.0.0/8").data)).2
    (("10.0.0.0").data) (("8").data) (.v4 167772160) 8 (by decide) (by decide) (by decide)

/-! ## Claim theorems: filter resolution -/

/-- Claim C8: resolution sees only the rules of the address's family —
filtering the concatenated two-family table down to the same-family rules
never changes the first-match result, so one concatenated table is
observationally equal to independent per-family tables. -/
theorem C8_resolution_family_independent (l : List Rule) (a : IpAddr) :
    resolve l a = resolve (l.filter fun r => sameFamily r.cidr.ip a) a := by
  induction l with
  | nil => rfl
  | cons r rs ih =>
    by_cases hf : sameFamily r.cidr.ip a = true
    · have hfil : (r :: rs).filter (fun q => sameFamily q.cidr.ip a)
          = r :: rs.filter (fun q => sameFamily q.cidr.ip a) := by
        simp [List.filter_cons, hf]
      rw [hfil]
      simp only [resolve]
      rcases hc : r.cidr.contains a with _ | b
      · rfl
      · cases b
        · exact ih
        · rfl
    · have hf2 : sameFamily r.cidr.ip a = false := by
        exact Bool.not_eq_true _ ▸ Bool.of_not_eq_true hf
      have hfil : (r :: rs).filter (fun q => sameFamily q.cidr.ip a)
          = rs.filter (fun q => sameFamily q.cidr.ip a) := by
        simp [List.filter_cons, hf2]
      rw [hfil]
      simp only [resolve, contains_cross r.cidr a hf2]
      exact ih

/-- Claim C3: filter resolution is first-match in table order — if the rule
at position `i` contains the address and no earlier rule does, that rule
alone determines the outcome: every extension of the table beyond position
`i` resolves to its outcome, and so does the full table, regardless of any
later rule's action. -/
theorem C3_resolution_first_match (l : List Rule) (a : IpAddr) (i : Nat) (hi : i < l.length)
    (hm : (l.get ⟨i, hi⟩).cidr.contains a = some true)
    (hk : ∀ k (hk2 : k < i), (l.get ⟨k, Nat.lt_trans hk2 hi⟩).cidr.contains a = some false) :
    (∀ rest, resolve (l.take (i + 1) ++ rest) a = some (ruleOutcome (l.get ⟨i, hi⟩))) ∧
    resolve l a = some (ruleOutcome (l.get ⟨i, hi⟩)) := by
  induction i generalizing l with
  | zero =>
    rcases l with _ | ⟨r, rs⟩
    · simp at hi
    · simp only [List.get] at hm ⊢
      constructor
      · intro rest
        simp [resolve, ruleOutcome, hm]
      · simp [resolve, ruleOutcome, hm]
  | succ n ihn =>
    rcases l with _ | ⟨r, rs⟩
    · simp at hi
    · have h0 : r.cidr.contains a = some false := by
        have := hk 0 (Nat.succ_pos n)
        simpa using this
      have hi' : n < rs.length := by
        simpa using hi
      have hm' : (rs.get ⟨n, hi'⟩).cidr.contains a = some true := by
        rw [← hm]
        simp [List.get_cons_succ]
      have hk' : ∀ k (h2 : k < n),
          (rs.get ⟨k, Nat.lt_trans h2 hi'⟩).cidr.contains a = some false := by
        intro k h2
        have := hk (k + 1) (by omega)
        simpa [List.get_cons_succ] using this
      obtain ⟨ih1, ih2⟩ := ihn rs hi' hm' hk'
      constructor
      · intro rest
        rw [List.take_succ_cons, List.cons_append]
        have hout : ((r :: rs).get ⟨n + 1, hi⟩) = rs.get ⟨n, hi'⟩ := by
          simp [List.get_cons_succ]
        rw [hout]
        simp only [resolve, h0]
        exact ih1 rest
      · have hout : ((r :: rs).get ⟨n + 1, hi⟩) = rs.get ⟨n, hi'⟩ := by
          simp [List.get_cons_succ]
        rw [hout]
        simp only [resolve, h0]
        exact ih2

/-- Claim C3 witness: a two-rule table whose first rule is of the other
family (hence a non-match) and whose second rule is a matching deny rule
resolves to `denied`. -/
theorem C3_resolution_first_match_witness :
    resolve [⟨⟨.v6 0, 1⟩, true, 0, 0⟩, ⟨⟨.v4 0, 1⟩, false, 0, 0⟩] (.v4 1) = some .denied := by
  exact (C3_resolution_first_match
    [⟨⟨.v6 0, 1⟩, true, 0, 0⟩, ⟨⟨.v4 0, 1⟩, false, 0, 0⟩] (.v4 1) 1 (by decide)
    (by decide)
    (fun k hk2 => by
      have hk0 : k = 0 := Nat.lt_one_iff.mp hk2
      subst hk0
      simp only [List.get]
      decide)).2

/-! ## Claim theorems: reconciler -/

/-- Claim C4: reconciler output cardinality — once the record's prefix is
parsed, a deny resolution yields zero entries without error; no matching
rule yields the out-of-policy-range error; a permit resolution with the
record's own network length above the effective max length yields zero
entries without error; otherwise the record yields exactly one entry per
origin ASN, in the ASN list's insertion order with duplicates preserved,
all carrying the record's prefix text and the effective max length. -/
theorem C4_reconciler_cardinality (acc : RecordAcc) (filters : List Rule)
    (pfx p0 p1 : List Char) (addr : IpAddr) (netmask : Nat)
    (hpfx : acc.prefixText = some pfx) (hsplit : pfx.splitOn ('/') = [p0, p1])
    (haddr : parseIp p0 = some addr) (hmask : parseU8 p1 = some netmask) :
    (resolve filters addr = some .denied → finishEntry acc filters = some (.ok [])) ∧
    (resolve filters addr = some .noMatch →
      finishEntry acc filters = some (.error .outOfPolicyRange)) ∧
    (∀ fmin fmax, resolve filters addr = some (.allowed fmin fmax) →
      (effectiveMaxLength acc.maxLen fmin fmax < netmask →
        finishEntry acc filters = some (.ok [])) ∧
      (netmask ≤ effectiveMaxLength acc.maxLen fmin fmax →
        finishEntry acc filters
          = some (.ok (acc.asns.map fun s =>
              ⟨pfx, effectiveMaxLength acc.maxLen fmin fmax, s⟩)))) := by
  refine ⟨fun hr => ?_, fun hr => ?_, fun fmin fmax hr => ⟨fun hgt => ?_, fun hle => ?_⟩⟩
  · simp [finishEntry, hpfx, hsplit, haddr, hmask, hr]
  · simp [finishEntry, hpfx, hsplit, haddr, hmask, hr]
  · simp [finishEntry, hpfx, hsplit, haddr, hmask, hr, hgt]
  · have hcond : ¬ (effectiveMaxLength acc.maxLen fmin fmax < netmask) := Nat.not_lt.mpr hle
    simp [finishEntry, hpfx, hsplit, haddr, hmask, hr, hcond]

/-- Claim C4 witness: a two-ASN record (with a duplicate ASN) inside a
permit filter with bounds `(16, 24)` yields exactly two entries in order. -/
theorem C4_reconciler_cardinality_witness :
    finishEntry ⟨some (("10.1.0.0/20").data), [("AS100").data, ("AS100").data], none⟩
      [⟨⟨.v4 167772160, 8⟩, true, 16, 24⟩]
      = some (.ok [⟨("10.1.0.0/20").data, 24, ("AS100").data⟩,
                   ⟨("10.1.0.0/20").data, 24, ("AS100").data⟩]) := by
  exact (((C4_reconciler_cardinality
      ⟨some (("10.1.0.0/20").data), [("AS100").data, ("AS100").data], none⟩
      [⟨⟨.v4 167772160, 8⟩, true, 16, 24⟩]
      (("10.1.0.0/20").data) (("10.1.0.0").data) (("20").data) (.v4 167837696) 20
      rfl (by decide) (by decide) (by decide)).2.2 16 24 (by decide)).2 (by decide))

/-! ## Claim theorems: prefix casing -/

/-- An already-uppercased token is uppercase-fixed. -/
theorem upper_map_fixed (t : List Char) :
    (t.map Char.toUpper).map Char.toUpper = t.map Char.toUpper := by
  apply map_eq_self_of
  intro c hc
  rcases List.mem_map.mp hc with ⟨d, _, rfl⟩
  exact toUpper_toUpper d

/-- One scan step preserves the casing invariant: any captured prefix text
stays lowercase-fixed and every stored ASN stays uppercase-fixed. -/
theorem scanStep_case_invariant (acc acc2 : RecordAcc) (l : List Char)
    (hs : scanStep acc l = .ok acc2)
    (hp : ∀ p, acc.prefixText = some p → p.map Char.toLower = p)
    (ha : ∀ s ∈ acc.asns, s.map Char.toUpper = s) :
    (∀ p, acc2.prefixText = some p → p.map Char.toLower = p) ∧
    (∀ s ∈ acc2.asns, s.map Char.toUpper = s) := by
  unfold scanStep at hs
  split at hs
  · obtain rfl := Except.ok.inj hs
    exact ⟨hp, ha⟩
  · split at hs
    · obtain rfl := Except.ok.inj hs
      exact ⟨hp, ha⟩
    · split at hs
      next t0 t1 rest hsp =>
        split at hs
        · obtain rfl := Except.ok.inj hs
          refine ⟨?_, ha⟩
          intro p hpp
          simp only at hpp
          obtain rfl := Option.some.inj hpp
          refine token_lower_fixed l t1 ?_
          rw [hsp]
          exact List.mem_cons_of_mem _ (List.mem_cons_self _ _)
        · split at hs
          · obtain rfl := Except.ok.inj hs
            refine ⟨hp, ?_⟩
            intro s hs2
            simp only at hs2
            rcases List.mem_append.mp hs2 with h | h
            · exact ha s h
            · simp only [List.mem_singleton] at h
              subst h
              exact upper_map_fixed t1
          · split at hs
            · split at hs
              · obtain rfl := Except.ok.inj hs
                exact ⟨hp, ha⟩
              · simp at hs
            · obtain rfl := Except.ok.inj hs
              exact ⟨hp, ha⟩
      next =>
        obtain rfl := Except.ok.inj hs
        exact ⟨hp, ha⟩

/-- The casing invariant holds along the whole record scan. -/
theorem scanAux_case_invariant :
    ∀ (lines : List (List Char)) (acc acc2 : RecordAcc),
      scanLinesAux acc lines = .ok acc2 →
      (∀ p, acc.prefixText = some p → p.map Char.toLower = p) →
      (∀ s ∈ acc.asns, s.map Char.toUpper = s) →
      (∀ p, acc2.prefixText = some p → p.map Char.toLower = p) ∧
      (∀ s ∈ acc2.asns, s.map Char.toUpper = s)
  | [], acc, acc2, hs, hp, ha => by
    obtain rfl := Except.ok.inj hs
    exact ⟨hp, ha⟩
  | l :: ls, acc, acc2, hs, hp, ha => by
    unfold scanLinesAux at hs
    split at hs
    · exact absurd hs (by simp)
    · next mid hstep =>
      obtain ⟨hp2, ha2⟩ := scanStep_case_invariant acc mid l hstep hp ha
      exact scanAux_case_invariant ls mid acc2 hs hp2 ha2

/-- Claim C1 (amended): the prefix text the parser stores is the token of
the lower-cased working copy, not the original-record casing — every
captured prefix is ASCII-lowercase-normalized (and every stored ASN is
ASCII-uppercase-normalized), and every emitted Authorization Entry echoes
that lowercase-normalized prefix text. -/
theorem C1_output_prefix_lowercased (lines : List (List Char)) (acc : RecordAcc)
    (hscan : scanLines lines = .ok acc) :
    (∀ p, acc.prefixText = some p → p.map Char.toLower = p) ∧
    (∀ s ∈ acc.asns, s.map Char.toUpper = s) ∧
    (∀ filters roas, process_entry lines filters = some (.ok roas) →
      ∀ r ∈ roas, r.prefixText.map Char.toLower = r.prefixText) := by
  obtain ⟨hp, ha⟩ := scanAux_case_invariant lines emptyAcc acc hscan
    (by intro p hpp; simp [emptyAcc] at hpp) (by intro s hs2; simp [emptyAcc] at hs2)
  refine ⟨hp, ha, ?_⟩
  intro filters roas hpe0 r hr
  have hpe : finishEntry acc filters = some (.ok roas) := by
    unfold process_entry at hpe0
    rw [hscan] at hpe0
    exact hpe0
  unfold finishEntry at hpe
  split at hpe
  · simp at hpe
  next pfx hacc =>
    split at hpe
    next p0 p1 hsp =>
      split at hpe
      · simp at hpe
      next addr haddr =>
        split at hpe
        · simp at hpe
        next netmask hmask =>
          split at hpe
          · simp at hpe
          · simp only [Option.some.injEq] at hpe
            obtain rfl := (Except.ok.inj hpe).symm
            exact absurd hr (List.not_mem_nil r)
          · simp at hpe
          next fmin fmax hres =>
            simp only [] at hpe
            split at hpe
            · simp only [Option.some.injEq] at hpe
              obtain rfl := (Except.ok.inj hpe).symm
              exact absurd hr (List.not_mem_nil r)
            · simp only [Option.some.injEq] at hpe
              obtain rfl := (Except.ok.inj hpe).symm
              rcases List.mem_map.mp hr with ⟨s, hs2, rfl⟩
              exact hp pfx hacc
    next =>
      simp at hpe

/-- Claim C1 (counterexample): a record whose `route6:` line carries the
upper-case prefix text `2001:DB8::/32` is stored and emitted as the
lower-cased `2001:db8::/32`, so the output prefix does not retain the
original-record casing. -/
theorem C1_prefix_casing_counterexample :
    process_entry [("route6: 2001:DB8::/32").data, ("origin: as64496").data]
        [⟨⟨.v6 (0x20010db8 <<< 96), 32⟩, true, 32, 48⟩]
      = some (.ok [⟨("2001:db8::/32").data, 48, ("AS64496").data⟩]) ∧
    ("2001:db8::/32").data ≠ ("2001:DB8::/32").data := by
  exact ⟨by decide, by decide⟩

/-- Claim C1 witness: the amended theorem evaluated on a concrete record
with one route line and one origin line. -/
theorem C1_output_prefix_lowercased_witness :
    (("10.0.0.0/8").data).map Char.toLower = ("10.0.0.0/8").data ∧
    (("AS64496").data).map Char.toUpper = ("AS64496").data := by
  have h := C1_output_prefix_lowercased
    [("route: 10.0.0.0/8").data, ("origin: as64496").data]
    ⟨some (("10.0.0.0/8").data), [("AS64496").data], none⟩ (by decide)
  exact ⟨h.1 _ rfl, h.2.1 _ (by simp)⟩

/-! ## Claim theorems: error-handling asymmetry -/

/-- Behavior of one scan step by line shape: a bad `max-length:` line fails
the record with the malformed-record error, every other line succeeds, and a
non-route line never changes the captured prefix. -/
theorem scanStep_spec (acc : RecordAcc) (l : List Char) :
    (badMaxLenLine l = true → scanStep acc l = .error .malformedRecord) ∧
    (badMaxLenLine l = false → ∃ acc2, scanStep acc l = .ok acc2) ∧
    (isRouteLine l = false → ∀ acc2, scanStep acc l = .ok acc2 →
      acc2.prefixText = acc.prefixText) := by
  rcases hh : l.head? with _ | c
  · simp [badMaxLenLine, isRouteLine, scanStep, hh]
  · by_cases hw : c.isWhitespace
    · simp [badMaxLenLine, isRouteLine, scanStep, hh, hw]
    · rcases hsp : splitWS (l.map Char.toLower) with _ | ⟨t0, _ | ⟨t1, rest⟩⟩
      · simp [badMaxLenLine, isRouteLine, scanStep, hh, hw, hsp]
      · simp [badMaxLenLine, isRouteLine, scanStep, hh, hw, hsp]
      · by_cases h1 : t0 = ("route:").data ∨ t0 = ("route6:").data
        · rcases h1 with rfl | rfl <;>
            simp [badMaxLenLine, isRouteLine, scanStep, hh, hw, hsp]
        · by_cases h2 : t0 = ("origin:").data
          · subst h2
            simp [badMaxLenLine, isRouteLine, scanStep, hh, hw, hsp]
          · by_cases h3 : t0 = ("max-length:").data
            · subst h3
              cases hu : parseU8 t1 with
              | none =>
                simp [badMaxLenLine, isRouteLine, scanStep, hh, hw, hsp, hu]
              | some n =>
                simp [badMaxLenLine, isRouteLine, scanStep, hh, hw, hsp, hu]
            · simp [badMaxLenLine, isRouteLine, scanStep, hh, hw, hsp, h1, h2, h3]

/-- A record scan containing a bad `max-length:` line fails with the
malformed-record error, however the scan started. -/
theorem scanAux_error_of_bad :
    ∀ (lines : List (List Char)) (acc : RecordAcc),
      (∃ l ∈ lines, badMaxLenLine l = true) →
      scanLinesAux acc lines = .error .malformedRecord
  | [], _, h => by simp at h
  | l :: ls, acc, h => by
    unfold scanLinesAux
    by_cases hb : badMaxLenLine l = true
    · rw [(scanStep_spec acc l).1 hb]
    · rcases h with ⟨l2, hl2, hbad⟩
      rcases List.mem_cons.mp hl2 with rfl | hl2tail
      · exact absurd hbad hb
      · have hbf : badMaxLenLine l = false := by
          cases hq : badMaxLenLine l
          · rfl
          · exact absurd hq hb
        obtain ⟨acc2, hstep⟩ := (scanStep_spec acc l).2.1 hbf
        rw [hstep]
        exact scanAux_error_of_bad ls acc2 ⟨l2, hl2tail, hbad⟩

/-- A record scan without any bad `max-length:` line succeeds. -/
theorem scanAux_ok_of_no_bad :
    ∀ (lines : List (List Char)) (acc : RecordAcc),
      (∀ l ∈ lines, badMaxLenLine l = false) →
      ∃ acc2, scanLinesAux acc lines = .ok acc2
  | [], acc, _ => ⟨acc, rfl⟩
  | l :: ls, acc, h => by
    obtain ⟨mid, hstep⟩ := (scanStep_spec acc l).2.1 (h l (List.mem_cons_self _ _))
    obtain ⟨acc2, hrest⟩ := scanAux_ok_of_no_bad ls mid
      (fun x hx => h x (List.mem_cons_of_mem _ hx))
    refine ⟨acc2, ?_⟩
    unfold scanLinesAux
    rw [hstep]
    exact hrest

/-- A successful scan over route-less lines leaves the prefix unchanged. -/
theorem scanAux_prefix_of_no_route :
    ∀ (lines : List (List Char)) (acc acc2 : RecordAcc),
      (∀ l ∈ lines, isRouteLine l = false) →
      scanLinesAux acc lines = .ok acc2 → acc2.prefixText = acc.prefixText
  | [], _, _, _, hs => by
    obtain rfl := Except.ok.inj hs
    rfl
  | l :: ls, acc, acc2, h, hs => by
    unfold scanLinesAux at hs
    cases hstep : scanStep acc l with
    | error e =>
      rw [hstep] at hs
      simp at hs
    | ok mid =>
      rw [hstep] at hs
      have h1 := (scanStep_spec acc l).2.2 (h l (List.mem_cons_self _ _)) mid hstep
      have h2 := scanAux_prefix_of_no_route ls mid acc2
        (fun x hx => h x (List.mem_cons_of_mem _ hx)) hs
      rw [h2, h1]

/-- The directory scan equals the concatenation of each record's surviving
entries: failed records contribute nothing and never stop the scan. -/
theorem process_directory_skips_and_continues :
    ∀ (files : List (List (List Char))) (filters : List Rule),
      (∀ f ∈ files, process_entry f filters ≠ none) →
      process_directory files filters
        = some (files.foldr (fun f r => entryRoas f filters ++ r) [])
  | [], _, _ => rfl
  | f :: fs, filters, h => by
    unfold process_directory
    have hrec := process_directory_skips_and_continues fs filters
      (fun x hx => h x (List.mem_cons_of_mem _ hx))
    cases hpe : process_entry f filters with
    | none => exact absurd hpe (h f (List.mem_cons_self _ _))
    | some res =>
      cases res with
      | error e =>
        show process_directory fs filters = _
        rw [hrec]
        simp [entryRoas, hpe]
      | ok roas =>
        show (match process_directory fs filters with
          | none => none
          | some rest => some (roas ++ rest)) = _
        rw [hrec]
        simp [entryRoas, hpe]

/-- Filter-table construction distributes over concatenation of line
lists. -/
theorem process_filter_append (l1 l2 : List (List Char)) :
    process_filter (l1 ++ l2) = process_filter l1 ++ process_filter l2 := by
  induction l1 with
  | nil => rfl
  | cons l ls ih =>
    simp only [List.cons_append, process_filter]
    cases hl : lineRule l <;> simp [ih]

/-- Claim C9: route-record parsing is strict where filter parsing is
lenient — a `max-length:` line whose value is not an integer fails that
record with the malformed-record error; a record whose lines contain no
`route:`/`route6:` line fails with the no-route error; the directory scan
skips each failed record and continues with the rest; while a malformed
filter line is silently dropped and valid filter rules are appended in file
order. -/
theorem C9_strict_records_lenient_filters :
    (∀ lines, (∃ l ∈ lines, badMaxLenLine l = true) →
      scanLines lines = .error .malformedRecord) ∧
    (∀ (lines : List (List Char)) (filters : List Rule),
      (∀ l ∈ lines, isRouteLine l = false) →
      (∀ l ∈ lines, badMaxLenLine l = false) →
      process_entry lines filters = some (.error .noRouteSpecified)) ∧
    (∀ files filters, (∀ f ∈ files, process_entry f filters ≠ none) →
      process_directory files filters
        = some (files.foldr (fun f r => entryRoas f filters ++ r) [])) ∧
    (∀ pre post line, lineRule line = none →
      process_filter (pre ++ line :: post) = process_filter (pre ++ post)) ∧
    (∀ pre post line r, lineRule line = some r →
      process_filter (pre ++ line :: post)
        = process_filter pre ++ r :: process_filter post) := by
  refine ⟨?_, ?_, ?_, ?_, ?_⟩
  · intro lines h
    exact scanAux_error_of_bad lines emptyAcc h
  · intro lines filters hnr hnb
    obtain ⟨acc2, hok⟩ := scanAux_ok_of_no_bad lines emptyAcc hnb
    have hpre : acc2.prefixText = none :=
      scanAux_prefix_of_no_route lines emptyAcc acc2 hnr hok
    unfold process_entry
    unfold scanLines
    rw [hok]
    show finishEntry acc2 filters = _
    unfold finishEntry
    rw [hpre]
  · intro files filters h
    exact process_directory_skips_and_continues files filters h
  · intro pre post line hl
    rw [process_filter_append, process_filter_append]
    have e1 : process_filter (line :: post) = process_filter post := by
      simp only [process_filter]
      rw [hl]
    rw [e1]
  · intro pre post line r hl
    rw [process_filter_append]
    have e1 : process_filter (line :: post) = r :: process_filter post := by
      simp only [process_filter]
      rw [hl]
    rw [e1]

/-- Claim C9 witness: a bad `max-length:` record fails, a route-less record
errors with no-route, a directory with one failing record still succeeds
with no entries, a malformed filter line is dropped, and a valid filter line
is kept. -/
theorem C9_strict_records_lenient_filters_witness :
    scanLines [("max-length: xy").data] = .error .malformedRecord ∧
    process_entry [("origin: AS1").data] [] = some (.error .noRouteSpecified) ∧
    process_directory [[("origin: AS1").data]] [] = some [] ∧
    process_filter [("bogus line").data] = [] ∧
    process_filter [("1 permit 10.0.0.0/8 16 24 dn42").data]
      = [⟨⟨.v4 167772160, 8⟩, true, 16, 24⟩] := by
  obtain ⟨h1, h2, h3, h4, h5⟩ := C9_strict_records_lenient_filters
  refine ⟨h1 _ ⟨_, List.mem_cons_self _ _, by decide⟩,
    h2 _ _ (by decide) (by decide), h3 _ _ (by decide),
    h4 [] [] (("bogus line").data) (by decide),
    h5 [] [] (("1 permit 10.0.0.0/8 16 24 dn42").data) ⟨⟨.v4 167772160, 8⟩, true, 16, 24⟩
      (by decide)⟩

/-! ## Claim theorems: record accumulation -/

/-- Merging with the empty scan state on the right is the identity. -/
theorem mergeAcc_empty_right (a : RecordAcc) : mergeAcc a emptyAcc = a := by
  rcases a with ⟨p, s, m⟩
  simp [mergeAcc, emptyAcc]

/-- One scan step from a merged state is the step from the right state,
merged back: the step only overwrites or appends fields. -/
theorem scanStep_merge (a b : RecordAcc) (l : List Char) :
    scanStep (mergeAcc a b) l = (scanStep b l).map (mergeAcc a) := by
  unfold scanStep
  rcases hh : l.head? with _ | c
  · rfl
  · by_cases hw : c.isWhitespace
    · simp [hw, Except.map]
    · rcases hsp : splitWS (l.map Char.toLower) with _ | ⟨t0, _ | ⟨t1, rest⟩⟩
      · simp [hw, Except.map]
      · simp [hw, Except.map]
      · by_cases h1 : t0 = ("route:").data ∨ t0 = ("route6:").data
        · simp [hw, h1, Except.map, mergeAcc]
        · by_cases h2 : t0 = ("origin:").data
          · simp [hw, h1, h2, Except.map, mergeAcc]
          · by_cases h3 : t0 = ("max-length:").data
            · cases hu : parseU8 t1 with
              | none => simp [hw, h1, h2, h3, hu, Except.map]
              | some n => simp [hw, h1, h2, h3, hu, Except.map, mergeAcc]
            · simp [hw, h1, h2, h3, Except.map]

/-- A whole scan from a merged state is the scan from the right state,
merged back. -/
theorem scanAux_merge :
    ∀ (lines : List (List Char)) (a b : RecordAcc),
      scanLinesAux (mergeAcc a b) lines = (scanLinesAux b lines).map (mergeAcc a)
  | [], _, _ => rfl
  | l :: ls, a, b => by
    show (match scanStep (mergeAcc a b) l with
      | Except.error e => Except.error e
      | Except.ok acc2 => scanLinesAux acc2 ls)
      = (match scanStep b l with
         | Except.error e => Except.error e
         | Except.ok acc2 => scanLinesAux acc2 ls).map (mergeAcc a)
    rw [scanStep_merge]
    cases scanStep b l with
    | error e => rfl
    | ok mid => exact scanAux_merge ls a mid

/-- Scanning a concatenation scans the first half, then the second from the
state it left. -/
theorem scanAux_append :
    ∀ (l1 l2 : List (List Char)) (acc : RecordAcc),
      scanLinesAux acc (l1 ++ l2)
        = match scanLinesAux acc l1 with
          | .error e => .error e
          | .ok mid => scanLinesAux mid l2
  | [], _, _ => rfl
  | l :: ls, l2, acc => by
    show (match scanStep acc l with
      | Except.error e => Except.error e
      | Except.ok acc2 => scanLinesAux acc2 (ls ++ l2))
      = match (match scanStep acc l with
               | Except.error e => Except.error e
               | Except.ok acc2 => scanLinesAux acc2 ls) with
        | Except.error e => Except.error e
        | Except.ok mid => scanLinesAux mid l2
    cases scanStep acc l with
    | error e => rfl
    | ok mid => exact scanAux_append ls l2 mid

/-- Claim C10: a record with a valid permit-resolved route, no origin
lines, and a network length within the effective bound yields the empty
entry list with no error; and scanning two record halves in sequence lets
the later half's `route:`/`max-length:` values overwrite the earlier ones
while `origin:` lines accumulate. -/
theorem C10_zero_origins_and_last_wins :
    (∀ (lines : List (List Char)) (filters : List Rule) (acc : RecordAcc)
        (pfx p0 p1 : List Char) (addr : IpAddr) (netmask fmin fmax : Nat),
      scanLines lines = .ok acc → acc.asns = [] → acc.prefixText = some pfx →
      pfx.splitOn ('/') = [p0, p1] → parseIp p0 = some addr → parseU8 p1 = some netmask →
      resolve filters addr = some (.allowed fmin fmax) →
      netmask ≤ effectiveMaxLength acc.maxLen fmin fmax →
      process_entry lines filters = some (.ok [])) ∧
    (∀ (l1 l2 : List (List Char)) (a1 a2 : RecordAcc),
      scanLines l1 = .ok a1 → scanLines l2 = .ok a2 →
      scanLines (l1 ++ l2) = .ok (mergeAcc a1 a2)) := by
  constructor
  · intro lines filters acc pfx p0 p1 addr netmask fmin fmax
      hscan hasns hpfx hsplit haddr hmask hres hle
    unfold process_entry
    rw [hscan]
    show finishEntry acc filters = _
    have hcond : ¬ (effectiveMaxLength acc.maxLen fmin fmax < netmask) := Nat.not_lt.mpr hle
    simp [finishEntry, hpfx, hsplit, haddr, hmask, hres, hcond, hasns]
  · intro l1 l2 a1 a2 h1 h2
    unfold scanLines at h1 h2 ⊢
    rw [scanAux_append l1 l2 emptyAcc, h1]
    show scanLinesAux a1 l2 = _
    have e1 : scanLinesAux a1 l2 = scanLinesAux (mergeAcc a1 emptyAcc) l2 := by
      rw [mergeAcc_empty_right]
    rw [e1, scanAux_merge l2 a1 emptyAcc, h2]
    rfl

/-- Claim C10 witness: a one-route no-origin record yields the empty entry
list, and a two-half record scan ends with the later route line's prefix
while accumulating origins. -/
theorem C10_zero_origins_and_last_wins_witness :
    process_entry [("route: 10.1.0.0/20").data] [⟨⟨.v4 167772160, 8⟩, true, 16, 24⟩]
      = some (.ok []) ∧
    scanLines ([("route: 10.0.0.0/8").data, ("origin: as1").data]
        ++ [("route: 11.0.0.0/8").data, ("origin: as2").data])
      = .ok (mergeAcc ⟨some (("10.0.0.0/8").data), [("AS1").data], none⟩
                      ⟨some (("11.0.0.0/8").data), [("AS2").data], none⟩) := by
  obtain ⟨hA, hB⟩ := C10_zero_origins_and_last_wins
  refine ⟨hA [("route: 10.1.0.0/20").data] [⟨⟨.v4 167772160, 8⟩, true, 16, 24⟩]
      ⟨some (("10.1.0.0/20").data), [], none⟩ (("10.1.0.0/20").data)
      (("10.1.0.0").data) (("20").data) (.v4 167837696) 20 16 24
      (by decide) rfl rfl (by decide) (by decide) (by decide) (by decide) (by decide),
    hB _ _ _ _ (by decide) (by decide)⟩
